import Mathlib

/-!
Verification development for the INHA album downloader
(`inha_dowloader.py`).  The Python source is shallowly embedded below:
strings are modelled as `List Char`, Python sets as `Finset`, raised
exceptions as explicit error values, and the side effects of the
download loop (directory creation, reporter callbacks, network fetches,
file writes and deletions) as an explicit event trace over a
filesystem modelled as a `Finset String` of existing file paths.
-/

namespace InhaDl

/-! ## Python primitives used by `RangeList` -/

/-- ASCII decimal digit, as accepted by Python's `int`. -/
def isPyDigit (c : Char) : Bool := '0' ≤ c && c ≤ '9'

/-- Whitespace stripped by Python's `int` (ASCII subset). -/
def isPySpace (c : Char) : Bool :=
  c = ' ' || c = '\t' || c = '\n' || c = '\r' || c = '\x0b' || c = '\x0c'

def digitVal (c : Char) : Nat := c.toNat - '0'.toNat

/-- Tail of Python's integer-literal grammar: digits, with single
underscores allowed between digits (`1_0` is `10`). -/
def digitsTail (acc : Nat) : List Char → Option Nat
  | [] => some acc
  | '_' :: c :: cs => if isPyDigit c then digitsTail (acc * 10 + digitVal c) cs else none
  | c :: cs => if isPyDigit c then digitsTail (acc * 10 + digitVal c) cs else none

/-- Nonempty digit run (Python's unsigned integer-literal body). -/
def parseDigits : List Char → Option Nat
  | [] => none
  | c :: cs => if isPyDigit c then digitsTail (digitVal c) cs else none

/-- Strip leading and trailing whitespace, as Python's `int` does. -/
def stripPySpaces (l : List Char) : List Char :=
  ((l.dropWhile isPySpace).reverse.dropWhile isPySpace).reverse

/-- Embeds Python's `int(s)` on decimal string input: optional
whitespace, optional sign, nonempty digit run.  `none` models the
`ValueError` raised on malformed input (e.g. `int('')`). -/
def pyInt (l : List Char) : Option Int :=
  match stripPySpaces l with
  | [] => none
  | c :: rest =>
    if c = '+' then (parseDigits rest).map Int.ofNat
    else if c = '-' then (parseDigits rest).map (fun n => -(n : Int))
    else (parseDigits (c :: rest)).map Int.ofNat

/-- Embeds Python's `s.split(",")`: substrings between commas, with
empty pieces kept (`"".split(",") == [""]`). -/
def splitComma : List Char → List (List Char)
  | [] => [[]]
  | c :: cs =>
    if c = ',' then [] :: splitComma cs
    else
      match splitComma cs with
      | [] => [[c]]
      | t :: ts => (c :: t) :: ts

/-- Embeds Python's `s.partition("-")`: the part before the first dash
and, when a dash occurs, the part after it. -/
def partitionDash : List Char → List Char × Option (List Char)
  | [] => ([], none)
  | c :: cs =>
    if c = '-' then ([], some cs)
    else
      let r := partitionDash cs
      (c :: r.1, r.2)

/-! ## `RangeList` -/

/-- The `ValueError`s that `RangeList.__init__` can raise: a failed
`int()` conversion, or the explicit strict-bound check with its message
naming the offending term and both bounds. -/
inductive RangeError where
  | badInt (s : List Char)
  | invalidRange (term : List Char) (start stop : Int)
deriving DecidableEq

/-- One iteration of the `RangeList` loop body on a single term
(`"3"` or `"3-5"`): partition at the first dash, convert with `int`,
check `start < end` strictly, and contribute `{start}` or
`range(start, end + 1)` (i.e. `Finset.Icc start stop`). -/
def parseTerm (t : List Char) : Except RangeError (Finset Int) :=
  let p := partitionDash t
  match pyInt p.1 with
  | none => .error (.badInt p.1)
  | some start =>
    match p.2 with
    | none => .ok {start}
    | some endS =>
      match pyInt endS with
      | none => .error (.badInt endS)
      | some stop =>
        if start ≥ stop then .error (.invalidRange t start stop)
        else .ok (Finset.Icc start stop)

/-- The `RangeList` loop: fold the terms over the accumulating set
`only`, stopping at the first raised `ValueError`. -/
def rangeListGo : List (List Char) → Finset Int → Except RangeError (Finset Int)
  | [], acc => .ok acc
  | t :: ts, acc =>
    match parseTerm t with
    | .error e => .error e
    | .ok s => rangeListGo ts (acc ∪ s)

/-- Embeds `RangeList.__init__`: split the expression on commas and
process each term. -/
def parseRangeList (l : List Char) : Except RangeError (Finset Int) :=
  rangeListGo (splitComma l) ∅

/-- The successfully produced selection set, if any. -/
def resultSet : Except RangeError (Finset Int) → Option (Finset Int)
  | .ok s => some s
  | .error _ => none

/-- The raised `ValueError`, if any. -/
def resultErr : Except RangeError (Finset Int) → Option RangeError
  | .ok _ => none
  | .error e => some e

/-- The integer set a single term contributes (empty for a term that
raises). -/
def termVal (t : List Char) : Finset Int :=
  match parseTerm t with
  | .ok s => s
  | .error _ => ∅

/-- The union of the per-term sets of an expression. -/
def unionOfTerms (l : List Char) : Finset Int :=
  ((splitComma l).map termVal).foldr (· ∪ ·) ∅

/-! ## The index-page patterns

`INHAAlbumDownloader.PATTERNS` holds three regexes that are searched
(first match, scanning left to right) in the index page:

  * `image_list`: `var images = ([^;]+);`
  * `iiif`      : `'server': '/medias([a-f/0-9-]+)',`
  * `title`     : `<title>\s*(.*)\s*</title>`

Each is embedded as an attempt-at-one-position function, lifted over
all start positions by `reSearch` (the embedding of `re.search`'s
leftmost-match scan). -/

/-- Leftmost-match regex search: try the pattern attempt at every
start position, left to right. -/
def reSearch (attempt : List Char → Option (List Char)) : List Char → Option (List Char)
  | [] => attempt []
  | c :: cs =>
    match attempt (c :: cs) with
    | some r => some r
    | none => reSearch attempt cs

/-- The pattern `var images = ([^;]+);` at one position: the literal,
then a nonempty run of non-semicolon characters (the greedy capture),
then a semicolon. -/
def tryImageListAt (l : List Char) : Option (List Char) :=
  let lit := "var images = ".toList
  if lit.isPrefixOf l then
    let rest := l.drop lit.length
    let cap := rest.takeWhile (fun c => c ≠ ';')
    if 0 < cap.length ∧ cap.length < rest.length then some cap else none
  else none

/-- The character class `[a-f/0-9-]`. -/
def iiifClass (c : Char) : Bool :=
  ('a' ≤ c && c ≤ 'f') || c = '/' || ('0' ≤ c && c ≤ '9') || c = '-'

/-- The pattern `'server': '/medias([a-f/0-9-]+)',` at one position:
the literal, a nonempty greedy run of class characters, then `',`
(backtracking into the class run can never expose a quote, so the
greedy run is exact). -/
def tryIiifAt (l : List Char) : Option (List Char) :=
  let lit := "'server': '/medias".toList
  if lit.isPrefixOf l then
    let rest := l.drop lit.length
    let cap := rest.takeWhile iiifClass
    if 0 < cap.length ∧ "',".toList.isPrefixOf (rest.drop cap.length) then some cap
    else none
  else none

/-- After the title capture, the regex tail `\s*</title>` must match:
greedy whitespace, then the closing literal. -/
def titleSuffixOk (l : List Char) : Bool :=
  "</title>".toList.isPrefixOf (l.dropWhile isPySpace)

/-- Greedy `(.*)` matching for the title pattern: start from the whole
remainder of the line (reversed) and shrink from the right until the
tail `\s*</title>` matches. -/
def titleShrink : List Char → List Char → Option (List Char)
  | [], suffix => if titleSuffixOk suffix then some [] else none
  | c :: cs, suffix =>
    if titleSuffixOk suffix then some (c :: cs).reverse
    else titleShrink cs (c :: suffix)

/-- The pattern `<title>\s*(.*)\s*</title>` at one position: the
opening literal, greedy `\s*`, then the greedy dot-star capture (which
cannot cross a newline) followed by `\s*</title>`. -/
def tryTitleAt (l : List Char) : Option (List Char) :=
  let lit := "<title>".toList
  if lit.isPrefixOf l then
    let rest := l.drop lit.length
    let rest2 := rest.dropWhile isPySpace
    let line := rest2.takeWhile (fun c => c ≠ '\n')
    titleShrink line.reverse (rest2.drop line.length)
  else none

/-- The `ParseError` exception: raised by `parse_album_page` with a
message naming the rule that found no match. -/
inductive ParseErr where
  | notFound (rule : String)
deriving DecidableEq

/-- The dict produced by `parse_album_page`: one capture per named
pattern. -/
structure ParsedPage where
  image_list : List Char
  iiif : List Char
  title : List Char
deriving DecidableEq

/-- Embeds `INHAAlbumDownloader.parse_album_page`: search each pattern
in `PATTERNS` (dict insertion order: `image_list`, `iiif`, `title`) and
raise `ParseError("<name> not found")` at the first pattern with no
match. -/
def parse_album_page (page : List Char) : Except ParseErr ParsedPage :=
  match reSearch tryImageListAt page with
  | none => .error (.notFound "image_list")
  | some il =>
    match reSearch tryIiifAt page with
    | none => .error (.notFound "iiif")
    | some ii =>
      match reSearch tryTitleAt page with
      | none => .error (.notFound "title")
      | some t => .ok ⟨il, ii, t⟩

/-- The parsed dict, if no `ParseError` was raised. -/
def parsedOk : Except ParseErr ParsedPage → Option ParsedPage
  | .ok p => some p
  | .error _ => none

/-- The raised `ParseError`, if any. -/
def parsedErr : Except ParseErr ParsedPage → Option ParseErr
  | .ok _ => none
  | .error e => some e

/-! ## `literal_eval` and album construction -/

/-- Scan a Python string literal body up to the closing quote `q`. -/
def scanStr (q : Char) : List Char → List Char → Option (List Char × List Char)
  | [], _ => none
  | c :: cs, acc => if c = q then some (acc.reverse, cs) else scanStr q cs (c :: acc)

def skipWs (l : List Char) : List Char := l.dropWhile isPySpace

/-- Items of a Python list-of-strings literal, positioned at the start
of an item or at the closing bracket (fuel bounds the recursion). -/
def parseItems : Nat → List Char → List String → Option (List String)
  | _, ']' :: rest, acc => if skipWs rest = [] then some acc.reverse else none
  | fuel + 1, q :: cs, acc =>
    if q = '\'' || q = '"' then
      match scanStr q cs [] with
      | none => none
      | some (content, rest) =>
        match skipWs rest with
        | ',' :: rest2 => parseItems fuel (skipWs rest2) (content.asString :: acc)
        | ']' :: rest2 =>
          if skipWs rest2 = [] then some (content.asString :: acc).reverse else none
        | _ => none
    else none
  | _, _, _ => none

/-- Embeds `ast.literal_eval` restricted to the shape the downloader
relies on: a literal list of (escape-free) quoted strings.  `none`
models the `ValueError`/`SyntaxError` that `literal_eval` raises on
text that is not a decodable literal. -/
def literalEvalStrList (l : List Char) : Option (List String) :=
  match skipWs l with
  | '[' :: rest => parseItems rest.length (skipWs rest) []
  | _ => none

/-- The exceptions `INHAAlbumDownloader.__init__` can raise after the
page text is available: a `ParseError` escaping `parse_album_page`, or
the `ValueError`/`SyntaxError` of `literal_eval` (which the code does
not wrap). -/
inductive InitError where
  | parseError (e : ParseErr)
  | valueError
deriving DecidableEq

/-- Distinguishes the `ParseError` category from other exception
kinds. -/
def isParseError : InitError → Bool
  | .parseError _ => true
  | .valueError => false

/-- The album model built by `__init__`: `image_names`, the sanitized
`title` (every `/` replaced by `_`), and the `iiif` path. -/
structure Album where
  image_names : List String
  title : String
  iiif : String
deriving DecidableEq

/-- Title sanitization from `__init__`: `parsed["title"].replace("/", "_")`. -/
def titleSanitize (t : List Char) : String :=
  (t.map (fun c => if c = '/' then '_' else c)).asString

/-- Embeds the album-construction part of `__init__`: parse the page,
decode the image list with `literal_eval`, sanitize the title. -/
def mkAlbum (page : List Char) : Except InitError Album :=
  match parse_album_page page with
  | .error e => .error (.parseError e)
  | .ok p =>
    match literalEvalStrList p.image_list with
    | none => .error .valueError
    | some names => .ok ⟨names, titleSanitize p.title, p.iiif.asString⟩

/-- The `__init__` exception, if one was raised. -/
def mkAlbumErr : Except InitError Album → Option InitError
  | .ok _ => none
  | .error e => some e

/-- The constructed album, if no exception was raised. -/
def mkAlbumOk : Except InitError Album → Option Album
  | .ok a => some a
  | .error _ => none

/-! ## The download orchestrator (`INHAAlbumDownloader.dowload`)

Side effects are made explicit: the filesystem is a `Finset String` of
existing file paths; every `mkdir`, reporter-callback invocation,
network fetch and `unlink` is recorded as an `Event` (events carry the
identifier being processed as ghost instrumentation, so frame
properties can be stated).  The network is an oracle
`world : String → FetchOutcome` giving, per image identifier, either a
successful fetch with its progress chunks or a `KeyboardInterrupt`
observed mid-fetch (with or without a partial file on disk). -/

/-- The `dl_context` dict.  `current_image_url` is only added by the
first `dl_context.update`, hence the `Option`. -/
structure Ctx where
  current_image : Option String
  processed_images : Nat
  transferred : Nat
  total_transferred : Nat
  total_images : Nat
  current_image_url : Option String
deriving DecidableEq

/-- A recorded side effect of one download run. -/
inductive Event where
  | mkdirE (dir : String)
  | onStart (ident : String) (ctx : Ctx)
  | onProgress (ident : String) (ctx : Ctx)
  | fetch (ident : String) (url : String) (outfile : String)
  | unlink (ident : String) (outfile : String)
  | onCompletion (ident : String) (ctx : Ctx) (skipped : Bool) (cancelled : Bool)
deriving DecidableEq

/-- The identifier an event concerns (`none` for `mkdir`). -/
def eventIdent : Event → Option String
  | .mkdirE _ => none
  | .onStart i _ => some i
  | .onProgress i _ => some i
  | .fetch i _ _ => some i
  | .unlink i _ => some i
  | .onCompletion i _ _ _ => some i

def isFetch : Event → Bool
  | .fetch _ _ _ => true
  | _ => false

/-- The `dl_context` snapshot a reporter hook received, if the event
is a hook invocation. -/
def eventCtx : Event → Option Ctx
  | .onStart _ c => some c
  | .onProgress _ c => some c
  | .onCompletion _ c _ _ => some c
  | _ => none

/-- What the network does for one image's `urlretrieve` call. -/
inductive FetchOutcome where
  | ok (chunks : List Nat)
  | interrupted (chunks : List Nat) (partialFile : Bool)
deriving DecidableEq

def FetchOutcome.isOk : FetchOutcome → Bool
  | .ok _ => true
  | .interrupted _ _ => false

/-- Exceptions a run can raise: `AttributeError` (from
`None.issubset`), `AssertionError` (from the subset assert), or the
`ValueError` of unpacking `i.rsplit("_", 1)` on an identifier without
an underscore. -/
inductive RunError where
  | attributeError
  | assertionError
  | unpackError (ident : String)
deriving DecidableEq

/-- The observable outcome of a run: its event trace, final
filesystem, final `dl_context` (when one was built) and the raised
exception, if any. -/
structure RunOut where
  events : List Event
  fs : Finset String
  finalCtx : Option Ctx
  err : Option RunError
deriving DecidableEq

/-- Embeds `BASE_URL.format(image=image, iiif=self.iiif)`. -/
def image_url (iiif image : String) : String :=
  "https://bibliotheque-numerique.inha.fr/i/?IIIF=" ++ iiif ++ "/iiif/" ++ image ++
    ".tif/full/full/0/native.jpg"

/-- Embeds `i.rsplit("_", 1)` followed by the 2-tuple unpacking: split
at the last underscore; `none` models the `ValueError` raised when the
identifier has no underscore. -/
def rsplitU : List Char → Option (List Char × List Char)
  | [] => none
  | c :: cs =>
    match rsplitU cs with
    | some (a, b) => some (c :: a, b)
    | none => if c = '_' then some ([], cs) else none

/-- Embeds `outdir / f"{num}.jpg"`. -/
def outfileName (outdir : String) (num : List Char) : String :=
  outdir ++ "/" ++ num.asString ++ ".jpg"

/-- The per-chunk work of `_urlretrieve_cb`: add the transferred bytes
to the per-image and cumulative counters and call `on_progress` with
the updated context. -/
def progressEvents (ident : String) (ctx : Ctx) : List Nat → List Event × Ctx
  | [] => ([], ctx)
  | c :: cs =>
    let ctx1 := { ctx with transferred := ctx.transferred + c,
                           total_transferred := ctx.total_transferred + c }
    let r := progressEvents ident ctx1 cs
    (Event.onProgress ident ctx1 :: r.1, r.2)

/-- Embeds `dl_context.update(current_image=outfile, transferred=0,
current_image_url=url)`, performed for every identifier before the
filter check. -/
def ctxUpdate (ctx : Ctx) (outfile url : String) : Ctx :=
  { ctx with current_image := some outfile, transferred := 0,
             current_image_url := some url }

/-- Embeds `dl_context["processed_images"] += 1`. -/
def ctxIncr (ctx : Ctx) : Ctx :=
  { ctx with processed_images := ctx.processed_images + 1 }

/-- The `for count, i in enumerate(self.image_names, 1)` loop of
`dowload`.  One iteration: rsplit the identifier (may raise), update
`dl_context`, skip identifiers excluded by a non-empty filter without
any callback, call `on_start`, then either skip on an existing output
file, fetch successfully, or observe a `KeyboardInterrupt` mid-fetch —
in which case delete the partial file (tolerating its absence, via
`Finset.erase`), report `cancelled` and `break`. -/
def dowloadLoop (world : String → FetchOutcome) (outdir iiif : String)
    (only : Finset String) :
    List String → Ctx → Finset String → List Event → RunOut
  | [], ctx, fs, evs => ⟨evs, fs, some ctx, none⟩
  | i :: rest, ctx, fs, evs =>
    match rsplitU i.toList with
    | none => ⟨evs, fs, some ctx, some (.unpackError i)⟩
    | some (_, num) =>
      let outfile := outfileName outdir num
      let url := image_url iiif i
      let ctx1 := ctxUpdate ctx outfile url
      if only ≠ ∅ ∧ i ∉ only then
        dowloadLoop world outdir iiif only rest ctx1 fs evs
      else
        let evs1 := evs ++ [Event.onStart i ctx1]
        if outfile ∈ fs then
          let ctx2 := ctxIncr ctx1
          dowloadLoop world outdir iiif only rest ctx2 fs
            (evs1 ++ [Event.onCompletion i ctx2 true false])
        else
          match world i with
          | .ok chunks =>
            let pr := progressEvents i ctx1 chunks
            let ctx2 := ctxIncr pr.2
            dowloadLoop world outdir iiif only rest ctx2 (insert outfile fs)
              (evs1 ++ Event.fetch i url outfile :: pr.1 ++
                [Event.onCompletion i ctx2 false false])
          | .interrupted chunks partialFile =>
            let pr := progressEvents i ctx1 chunks
            let fs1 := if partialFile then insert outfile fs else fs
            ⟨evs1 ++ Event.fetch i url outfile :: pr.1 ++
               [Event.unlink i outfile, Event.onCompletion i pr.2 false true],
             fs1.erase outfile, some pr.2, none⟩

/-- The initial `dl_context`. -/
def initCtx (total : Nat) : Ctx := ⟨none, 0, 0, 0, total, none⟩

/-- Embeds `INHAAlbumDownloader.dowload`: the subset assert (an
`AttributeError` when `only is None`, an `AssertionError` when the
filter is not a subset of the album's identifiers), the `dl_context`
construction with the filtered total, the output-directory choice and
conditional `mkdir`, then the download loop. -/
def dowload (album : Album) (fs0 : Finset String) (dirExists : Bool)
    (world : String → FetchOutcome) (directory : Option String)
    (only : Option (Finset String)) : RunOut :=
  match only with
  | none => ⟨[], fs0, none, some .attributeError⟩
  | some onlySet =>
    if ∀ x ∈ onlySet, x ∈ album.image_names then
      let total := if onlySet ≠ ∅ then onlySet.card else album.image_names.length
      let outdir := directory.getD album.title
      let evs0 := if dirExists then [] else [Event.mkdirE outdir]
      dowloadLoop world outdir album.iiif onlySet album.image_names (initCtx total) fs0 evs0
    else ⟨[], fs0, none, some .assertionError⟩

/-- Running the download twice against the same output directory with
an empty filter, feeding the filesystem the first run leaves behind
into the second run (the idempotence scenario). -/
def runTwice (album : Album) (fs0 : Finset String) (d1 d2 : Bool)
    (world : String → FetchOutcome) (directory : Option String) : RunOut × RunOut :=
  let r1 := dowload album fs0 d1 world directory (some ∅)
  (r1, dowload album r1.fs d2 world directory (some ∅))

/-- A synthetic index page carrying all three markers. -/
def c5GoodPage : List Char :=
  "<title>My Album</title> var images = ['a_1', 'b_2']; 'server': '/medias/ab-12/cd',".toList

/-- `c5GoodPage` with the image-list marker removed. -/
def c5NoImages : List Char :=
  "<title>My Album</title> 'server': '/medias/ab-12/cd',".toList

/-- `c5GoodPage` with the resource-namespace marker removed. -/
def c5NoIiif : List Char :=
  "<title>My Album</title> var images = ['a_1', 'b_2'];".toList

/-- `c5GoodPage` with the title marker removed. -/
def c5NoTitle : List Char :=
  "var images = ['a_1', 'b_2']; 'server': '/medias/ab-12/cd',".toList

/-- A page on which the image-list rule matches twice. -/
def c5DupPage : List Char :=
  "var images = ['a_1'];var images = ['b_2'];'server': '/medias/ab',<title>T</title>".toList

/-- A page whose three rules all match but whose image-list capture
(`zzz`) is not a decodable list literal. -/
def c6BadPage : List Char :=
  "<title>T</title>var images = zzz;'server': '/medias/ab',".toList

/-- A three-image album used by the concrete download scenarios. -/
def exAlbum : Album := ⟨["a_1", "b_2", "c_3"], "T", "/ns"⟩

/-- A network in which every fetch succeeds with one 100-byte chunk. -/
def worldOk : String → FetchOutcome := fun _ => .ok [100]

/-- A network in which the fetch of `b_2` (item 2 of 3) is interrupted
by the user after one 5-byte chunk, leaving a partial file; all other
fetches succeed. -/
def worldCancelB : String → FetchOutcome :=
  fun s => if s = "b_2" then .interrupted [5] true else .ok [7]

/-! ## Lemmas about `RangeList` -/

theorem mem_of_mem_dropWhile {p : Char → Bool} :
    ∀ {l : List Char} {c : Char}, c ∈ l.dropWhile p → c ∈ l := by
  intro l
  induction l with
  | nil => intro c h; simp at h
  | cons x xs ih =>
    intro c h
    rw [List.dropWhile_cons] at h
    by_cases hx : p x = true
    · simp only [hx, if_true] at h
      exact List.mem_cons_of_mem x (ih h)
    · simp only [hx, if_false] at h
      exact h

theorem mem_of_mem_strip {l : List Char} {c : Char} (h : c ∈ stripPySpaces l) : c ∈ l := by
  simp only [stripPySpaces, List.mem_reverse] at h
  have h1 : c ∈ (l.dropWhile isPySpace).reverse := mem_of_mem_dropWhile h
  rw [List.mem_reverse] at h1
  exact mem_of_mem_dropWhile h1

theorem pyInt_nonneg {l : List Char} {n : Int} (hd : '-' ∉ l) (h : pyInt l = some n) :
    0 ≤ n := by
  unfold pyInt at h
  split at h
  · exact absurd h (by simp)
  · rename_i c rest hs
    have hcne : c ≠ '-' := by
      intro hc
      have hmem : '-' ∈ stripPySpaces l := by
        rw [hs, ← hc]
        exact List.mem_cons_self c rest
      exact hd (mem_of_mem_strip hmem)
    by_cases hplus : c = '+'
    · rw [if_pos hplus] at h
      rcases Option.map_eq_some'.mp h with ⟨m, _, hmn⟩
      rw [← hmn]
      exact Int.ofNat_nonneg m
    · rw [if_neg hplus, if_neg hcne] at h
      rcases Option.map_eq_some'.mp h with ⟨m, _, hmn⟩
      rw [← hmn]
      exact Int.ofNat_nonneg m

theorem partitionDash_fst_no_dash (l : List Char) : '-' ∉ (partitionDash l).1 := by
  induction l with
  | nil => simp [partitionDash]
  | cons c cs ih =>
    by_cases hc : c = '-'
    · simp [partitionDash, hc]
    · simp only [partitionDash, if_neg hc]
      intro hmem
      rcases List.mem_cons.mp hmem with h | h
      · exact hc h.symm
      · exact ih h

theorem partitionDash_no_dash (a : List Char) (h : '-' ∉ a) : partitionDash a = (a, none) := by
  induction a with
  | nil => rfl
  | cons c cs ih =>
    have hc : c ≠ '-' := fun hc => h (hc ▸ List.mem_cons_self c cs)
    have hcs : '-' ∉ cs := fun hm => h (List.mem_cons_of_mem c hm)
    simp [partitionDash, hc, ih hcs]

theorem partitionDash_append (a b : List Char) (h : '-' ∉ a) :
    partitionDash (a ++ '-' :: b) = (a, some b) := by
  induction a with
  | nil => simp [partitionDash]
  | cons c cs ih =>
    have hc : c ≠ '-' := fun hc => h (hc ▸ List.mem_cons_self c cs)
    have hcs : '-' ∉ cs := fun hm => h (List.mem_cons_of_mem c hm)
    simp [partitionDash, hc, ih hcs]

theorem parseTerm_nonneg {t : List Char} {st : Finset Int} (h : parseTerm t = .ok st) :
    ∀ n ∈ st, 0 ≤ n := by
  have hnd := partitionDash_fst_no_dash t
  simp only [parseTerm] at h
  split at h
  · exact absurd h (by simp)
  · rename_i start hstart
    have h0 : 0 ≤ start := pyInt_nonneg hnd hstart
    split at h
    · intro n hn
      rw [Except.ok.injEq] at h
      rw [← h] at hn
      rw [Finset.mem_singleton] at hn
      omega
    · split at h
      · exact absurd h (by simp)
      · rename_i stop _
        split at h
        · exact absurd h (by simp)
        · intro n hn
          rw [Except.ok.injEq] at h
          rw [← h, Finset.mem_Icc] at hn
          omega

theorem rangeListGo_nonneg (ts : List (List Char)) :
    ∀ acc s, (∀ n ∈ acc, 0 ≤ n) → rangeListGo ts acc = .ok s → ∀ n ∈ s, 0 ≤ n := by
  induction ts with
  | nil =>
    intro acc s hacc h
    simp only [rangeListGo, Except.ok.injEq] at h
    exact h ▸ hacc
  | cons t ts ih =>
    intro acc s hacc h
    simp only [rangeListGo] at h
    cases hp : parseTerm t with
    | error e => rw [hp] at h; exact absurd h (by simp)
    | ok st =>
      rw [hp] at h
      refine ih (acc ∪ st) s ?_ h
      intro n hn
      rcases Finset.mem_union.mp hn with hmem | hmem
      · exact hacc n hmem
      · exact parseTerm_nonneg hp n hmem

theorem rangeListGo_union (ts : List (List Char)) :
    ∀ acc s, rangeListGo ts acc = .ok s →
      s = acc ∪ (ts.map termVal).foldr (· ∪ ·) ∅ := by
  induction ts with
  | nil =>
    intro acc s h
    simp only [rangeListGo, Except.ok.injEq] at h
    rw [← h]
    simp
  | cons t ts ih =>
    intro acc s h
    simp only [rangeListGo] at h
    cases hp : parseTerm t with
    | error e => rw [hp] at h; exact absurd h (by simp)
    | ok st =>
      rw [hp] at h
      have hs := ih (acc ∪ st) s h
      simp only [List.map_cons, List.foldr_cons]
      have hterm : termVal t = st := by simp [termVal, hp]
      rw [hs, hterm, Finset.union_assoc]

theorem rangeListGo_err (ts : List (List Char)) :
    ∀ acc t e, t ∈ ts → parseTerm t = .error e →
      resultSet (rangeListGo ts acc) = none := by
  induction ts with
  | nil => intro acc t e ht _; exact absurd ht (List.not_mem_nil t)
  | cons t0 ts ih =>
    intro acc t e ht he
    simp only [rangeListGo]
    cases hp : parseTerm t0 with
    | error e0 => simp [resultSet]
    | ok st =>
      rcases List.mem_cons.mp ht with h | h
      · rw [h] at he; rw [hp] at he; exact absurd he (by simp)
      · exact ih (acc ∪ st) t e h he

/-! ## Claim theorems about `RangeList` -/

/-- C3: for every range expression `RangeList` accepts, the resulting
selection set equals the union over all comma-separated terms of each
term's implied integer set ({N} for a single term, Icc N M for a range
term), with duplicates absorbed by set semantics; on
"1-3,5,7,10-12" the result is exactly {1,2,3,5,7,10,11,12}. -/
theorem c3_selection_is_union_of_terms :
    (∀ l s, resultSet (parseRangeList l) = some s → s = unionOfTerms l) ∧
    (∀ a n, '-' ∉ a → pyInt a = some n → termVal a = {n}) ∧
    (∀ a b na nb, '-' ∉ a → pyInt a = some na → pyInt b = some nb → na < nb →
      termVal (a ++ '-' :: b) = Finset.Icc na nb) ∧
    resultSet (parseRangeList "1-3,5,7,10-12".toList) =
      some ({1, 2, 3, 5, 7, 10, 11, 12} : Finset Int) := by
  refine ⟨?_, ?_, ?_, by decide⟩
  · intro l s h
    unfold parseRangeList at h
    cases hg : rangeListGo (splitComma l) ∅ with
    | error e => rw [hg] at h; exact absurd h (by simp [resultSet])
    | ok s0 =>
      rw [hg] at h
      simp only [resultSet, Option.some.injEq] at h
      rw [← h]
      have := rangeListGo_union (splitComma l) ∅ s0 hg
      rw [this]
      simp [unionOfTerms]
  · intro a n hnd hint
    simp [termVal, parseTerm, partitionDash_no_dash a hnd, hint]
  · intro a b na nb hnd hina hinb hlt
    have hns : ¬ (na ≥ nb) := by omega
    simp [termVal, parseTerm, partitionDash_append a b hnd, hina, hinb, hns]

/-- C3 witness: concrete instantiation of the union property on the
expression "2,4-6". -/
theorem c3_witness :
    resultSet (parseRangeList "2,4-6".toList) = some ({2, 4, 5, 6} : Finset Int) ∧
      ({2, 4, 5, 6} : Finset Int) = unionOfTerms "2,4-6".toList :=
  ⟨by decide, c3_selection_is_union_of_terms.1 "2,4-6".toList {2, 4, 5, 6} (by decide)⟩

/-- C8: a range term N-M with N >= M makes parsing fail with a
ValueError naming the offending term and both bounds; any expression
containing a failing term produces no selection set; concretely,
"5-5" and "5-3" are rejected. -/
theorem c8_strict_range_bounds :
    (∀ a b na nb, '-' ∉ a → pyInt a = some na → pyInt b = some nb → nb ≤ na →
      parseTerm (a ++ '-' :: b) = .error (.invalidRange (a ++ '-' :: b) na nb)) ∧
    (∀ l t e, t ∈ splitComma l → parseTerm t = .error e →
      resultSet (parseRangeList l) = none) ∧
    resultErr (parseRangeList "5-5".toList) =
      some (.invalidRange "5-5".toList 5 5) ∧
    resultErr (parseRangeList "5-3".toList) =
      some (.invalidRange "5-3".toList 5 3) := by
  refine ⟨?_, ?_, by decide, by decide⟩
  · intro a b na nb hnd hina hinb hle
    have hge : na ≥ nb := hle
    simp [parseTerm, partitionDash_append a b hnd, hina, hinb, hge]
  · intro l t e ht he
    exact rangeListGo_err (splitComma l) ∅ t e ht he

/-- C8 witness: the general bound theorem applied to the term
"7-4". -/
theorem c8_witness :
    parseTerm ("7".toList ++ '-' :: "4".toList) =
      .error (.invalidRange ("7".toList ++ '-' :: "4".toList) 7 4) :=
  c8_strict_range_bounds.1 "7".toList "4".toList 7 4 (by decide) (by decide) (by decide)
    (by decide)

/-- C9 counterexample: the expression "0" is accepted by `RangeList`
and puts 0 — which is not a positive integer — into the selection
set. -/
theorem c9_zero_cex :
    resultSet (parseRangeList "0".toList) = some {0} ∧ ¬ (1 ≤ (0 : Int)) :=
  ⟨by decide, by decide⟩

/-- C9 (amended): every selection set `RangeList` produces contains
only distinct nonnegative integers — negative values are impossible,
but 0 can occur (so "values >= 1" does not hold). -/
theorem c9_range_sets_nonneg :
    ∀ l s, resultSet (parseRangeList l) = some s → ∀ n ∈ s, 0 ≤ n := by
  intro l s h
  unfold parseRangeList at h
  cases hg : rangeListGo (splitComma l) ∅ with
  | error e => rw [hg] at h; exact absurd h (by simp [resultSet])
  | ok s0 =>
    rw [hg] at h
    simp only [resultSet, Option.some.injEq] at h
    rw [← h]
    exact rangeListGo_nonneg (splitComma l) ∅ s0 (by simp) hg

/-- C9 witness: concrete instantiation of nonnegativity on the
expression "1-3". -/
theorem c9_witness :
    resultSet (parseRangeList "1-3".toList) = some ({1, 2, 3} : Finset Int) ∧
      ∀ n ∈ ({1, 2, 3} : Finset Int), 0 ≤ n :=
  ⟨by decide, c9_range_sets_nonneg "1-3".toList {1, 2, 3} (by decide)⟩

/-- C7 counterexample: parsing the empty range expression does not
succeed with an empty set — `int('')` raises a ValueError, so
`RangeList("")` fails. -/
theorem c7_empty_expr_cex :
    resultErr (parseRangeList "".toList) = some (.badInt []) ∧
      resultSet (parseRangeList "".toList) = none :=
  ⟨by decide, by decide⟩

/-! ## Claim theorems about the index-page parser -/

/-- C5 counterexample: the parser does not require each rule to match
exactly once — on a page where the image-list rule matches at two
positions (captures `['a_1']` and `['b_2']`), parsing still succeeds,
using the first match, instead of failing. -/
theorem c5_dup_match_cex :
    reSearch tryImageListAt c5DupPage = some "['a_1']".toList ∧
    reSearch tryImageListAt (c5DupPage.drop 21) = some "['b_2']".toList ∧
    parsedOk (parse_album_page c5DupPage) =
      some ⟨"['a_1']".toList, "/ab".toList, "T".toList⟩ :=
  ⟨by decide, by decide, by decide⟩

/-- C5 (amended): each rule must match at least once (the first match
is used); if any rule finds no match the parse fails with a
`ParseError` naming that rule and produces no partial result; on a
page containing all three markers it returns exactly the expected
captures. -/
theorem c5_parser_rules :
    (∀ page, reSearch tryImageListAt page = none →
      parse_album_page page = .error (.notFound "image_list")) ∧
    (∀ page il, reSearch tryImageListAt page = some il →
      reSearch tryIiifAt page = none →
      parse_album_page page = .error (.notFound "iiif")) ∧
    (∀ page il ii, reSearch tryImageListAt page = some il →
      reSearch tryIiifAt page = some ii →
      reSearch tryTitleAt page = none →
      parse_album_page page = .error (.notFound "title")) ∧
    (∀ page il ii t, reSearch tryImageListAt page = some il →
      reSearch tryIiifAt page = some ii →
      reSearch tryTitleAt page = some t →
      parse_album_page page = .ok ⟨il, ii, t⟩) ∧
    parsedOk (parse_album_page c5GoodPage) =
      some ⟨"['a_1', 'b_2']".toList, "/ab-12/cd".toList, "My Album".toList⟩ ∧
    parsedErr (parse_album_page c5NoImages) = some (.notFound "image_list") ∧
    parsedErr (parse_album_page c5NoIiif) = some (.notFound "iiif") ∧
    parsedErr (parse_album_page c5NoTitle) = some (.notFound "title") := by
  refine ⟨?_, ?_, ?_, ?_, by decide, by decide, by decide, by decide⟩
  · intro page h1
    unfold parse_album_page
    rw [h1]
  · intro page il h1 h2
    unfold parse_album_page
    rw [h1, h2]
  · intro page il ii h1 h2 h3
    unfold parse_album_page
    rw [h1, h2, h3]
  · intro page il ii t h1 h2 h3
    unfold parse_album_page
    rw [h1, h2, h3]

/-- C5 witness: the failure-naming rule applied to the empty page. -/
theorem c5_witness :
    reSearch tryImageListAt [] = none ∧
      parse_album_page [] = .error (.notFound "image_list") :=
  ⟨by decide, c5_parser_rules.1 [] (by decide)⟩

/-- C6 counterexample: when the captured image-list text is not
decodable, album construction fails with the literal decoder's
`ValueError`/`SyntaxError` — not with the `ParseError` category used
for a failed extraction rule. -/
theorem c6_decode_error_cex :
    (parsedOk (parse_album_page c6BadPage)).isSome = true ∧
    literalEvalStrList "zzz".toList = none ∧
    mkAlbumErr (mkAlbum c6BadPage) = some .valueError ∧
    isParseError .valueError = false :=
  ⟨by decide, by decide, by decide, by decide⟩

/-- C6 (amended): when all extraction rules match but the captured
image-list text is not decodable as a literal list of strings, album
construction fails with the decoder's `ValueError`/`SyntaxError` —
a different error kind than `ParseError` — and returns no album. -/
theorem c6_decode_error_kind :
    ∀ page p, parse_album_page page = .ok p →
      literalEvalStrList p.image_list = none →
      mkAlbum page = .error .valueError ∧
        ∀ e, mkAlbum page ≠ .error (.parseError e) := by
  intro page p hp hd
  have hm : mkAlbum page = .error .valueError := by
    simp only [mkAlbum, hp, hd]
  refine ⟨hm, fun e h => ?_⟩
  rw [hm] at h
  simp at h

theorem parsedOk_eq_some {e : Except ParseErr ParsedPage} {p : ParsedPage}
    (h : parsedOk e = some p) : e = .ok p := by
  cases e with
  | ok q => simp only [parsedOk, Option.some.injEq] at h; rw [h]
  | error err => simp [parsedOk] at h

/-- C6 witness: the amended theorem applied to `c6BadPage`. -/
theorem c6_witness :
    mkAlbum c6BadPage = .error .valueError ∧
      ∀ e, mkAlbum c6BadPage ≠ .error (.parseError e) :=
  c6_decode_error_kind c6BadPage
    ⟨"zzz".toList, "/ab".toList, "T".toList⟩ (parsedOk_eq_some (by decide)) (by decide)

/-! ## Step equations for the download loop -/

theorem loop_step_unpack {world : String → FetchOutcome} {outdir iiif : String}
    {only : Finset String} {i : String} {rest : List String} {ctx : Ctx}
    {fs : Finset String} {evs : List Event}
    (hsplit : rsplitU i.toList = none) :
    dowloadLoop world outdir iiif only (i :: rest) ctx fs evs =
      ⟨evs, fs, some ctx, some (.unpackError i)⟩ := by
  simp only [dowloadLoop, hsplit]

theorem loop_step_filtered {world : String → FetchOutcome} {outdir iiif : String}
    {only : Finset String} {i : String} {rest : List String} {ctx : Ctx}
    {fs : Finset String} {evs : List Event} {a num : List Char}
    (hsplit : rsplitU i.toList = some (a, num))
    (hfil : only ≠ ∅ ∧ i ∉ only) :
    dowloadLoop world outdir iiif only (i :: rest) ctx fs evs =
      dowloadLoop world outdir iiif only rest
        (ctxUpdate ctx (outfileName outdir num) (image_url iiif i)) fs evs := by
  simp only [dowloadLoop, hsplit, if_pos hfil]

theorem loop_step_skip {world : String → FetchOutcome} {outdir iiif : String}
    {only : Finset String} {i : String} {rest : List String} {ctx : Ctx}
    {fs : Finset String} {evs : List Event} {a num : List Char}
    (hsplit : rsplitU i.toList = some (a, num))
    (hfil : ¬(only ≠ ∅ ∧ i ∉ only))
    (hex : outfileName outdir num ∈ fs) :
    dowloadLoop world outdir iiif only (i :: rest) ctx fs evs =
      dowloadLoop world outdir iiif only rest
        (ctxIncr (ctxUpdate ctx (outfileName outdir num) (image_url iiif i))) fs
        (evs ++
          [Event.onStart i (ctxUpdate ctx (outfileName outdir num) (image_url iiif i)),
           Event.onCompletion i
             (ctxIncr (ctxUpdate ctx (outfileName outdir num) (image_url iiif i)))
             true false]) := by
  simp only [dowloadLoop, hsplit, if_neg hfil, if_pos hex, List.append_assoc,
    List.singleton_append]

theorem loop_step_ok {world : String → FetchOutcome} {outdir iiif : String}
    {only : Finset String} {i : String} {rest : List String} {ctx : Ctx}
    {fs : Finset String} {evs : List Event} {a num : List Char} {chunks : List Nat}
    (hsplit : rsplitU i.toList = some (a, num))
    (hfil : ¬(only ≠ ∅ ∧ i ∉ only))
    (hex : outfileName outdir num ∉ fs)
    (hw : world i = .ok chunks) :
    dowloadLoop world outdir iiif only (i :: rest) ctx fs evs =
      dowloadLoop world outdir iiif only rest
        (ctxIncr (progressEvents i
          (ctxUpdate ctx (outfileName outdir num) (image_url iiif i)) chunks).2)
        (insert (outfileName outdir num) fs)
        (evs ++
          Event.onStart i (ctxUpdate ctx (outfileName outdir num) (image_url iiif i)) ::
          Event.fetch i (image_url iiif i) (outfileName outdir num) ::
          ((progressEvents i
            (ctxUpdate ctx (outfileName outdir num) (image_url iiif i)) chunks).1 ++
          [Event.onCompletion i
            (ctxIncr (progressEvents i
              (ctxUpdate ctx (outfileName outdir num) (image_url iiif i)) chunks).2)
            false false])) := by
  simp only [dowloadLoop, hsplit, if_neg hfil, if_neg hex, hw, List.append_assoc,
    List.singleton_append, List.cons_append, List.nil_append]

theorem loop_step_cancel {world : String → FetchOutcome} {outdir iiif : String}
    {only : Finset String} {i : String} {rest : List String} {ctx : Ctx}
    {fs : Finset String} {evs : List Event} {a num : List Char} {chunks : List Nat}
    {pf : Bool}
    (hsplit : rsplitU i.toList = some (a, num))
    (hfil : ¬(only ≠ ∅ ∧ i ∉ only))
    (hex : outfileName outdir num ∉ fs)
    (hw : world i = .interrupted chunks pf) :
    dowloadLoop world outdir iiif only (i :: rest) ctx fs evs =
      ⟨evs ++
         Event.onStart i (ctxUpdate ctx (outfileName outdir num) (image_url iiif i)) ::
         Event.fetch i (image_url iiif i) (outfileName outdir num) ::
         ((progressEvents i
           (ctxUpdate ctx (outfileName outdir num) (image_url iiif i)) chunks).1 ++
         [Event.unlink i (outfileName outdir num),
          Event.onCompletion i
            (progressEvents i
              (ctxUpdate ctx (outfileName outdir num) (image_url iiif i)) chunks).2
            false true]),
       (if pf then insert (outfileName outdir num) fs else fs).erase
         (outfileName outdir num),
       some (progressEvents i
         (ctxUpdate ctx (outfileName outdir num) (image_url iiif i)) chunks).2,
       none⟩ := by
  simp only [dowloadLoop, hsplit, if_neg hfil, if_neg hex, hw, List.append_assoc,
    List.singleton_append, List.cons_append, List.nil_append]

/-! ## Invariants of the download loop -/

theorem progressEvents_ident (ident : String) :
    ∀ chunks ctx, ∀ e ∈ (progressEvents ident ctx chunks).1, eventIdent e = some ident := by
  intro chunks
  induction chunks with
  | nil => intro ctx e he; simp [progressEvents] at he
  | cons c cs ih =>
    intro ctx e he
    simp only [progressEvents, List.mem_cons] at he
    rcases he with he | he
    · rw [he]; rfl
    · exact ih _ e he

theorem progressEvents_total (ident : String) :
    ∀ chunks ctx, (progressEvents ident ctx chunks).2.total_images = ctx.total_images := by
  intro chunks
  induction chunks with
  | nil => intro ctx; rfl
  | cons c cs ih => intro ctx; simp only [progressEvents]; rw [ih]

theorem progressEvents_processed (ident : String) :
    ∀ chunks ctx,
      (progressEvents ident ctx chunks).2.processed_images = ctx.processed_images := by
  intro chunks
  induction chunks with
  | nil => intro ctx; rfl
  | cons c cs ih => intro ctx; simp only [progressEvents]; rw [ih]

/-- Events already recorded stay recorded: the loop only appends. -/
theorem loop_evs_sub (world : String → FetchOutcome) (outdir iiif : String)
    (only : Finset String) :
    ∀ names ctx fs evs e, e ∈ evs →
      e ∈ (dowloadLoop world outdir iiif only names ctx fs evs).events := by
  intro names
  induction names with
  | nil => intro ctx fs evs e he; simpa [dowloadLoop] using he
  | cons i rest ih =>
    intro ctx fs evs e he
    cases hsplit : rsplitU i.toList with
    | none => rw [loop_step_unpack hsplit]; exact he
    | some p =>
      obtain ⟨a, num⟩ := p
      by_cases hfil : only ≠ ∅ ∧ i ∉ only
      · rw [loop_step_filtered hsplit hfil]
        exact ih _ fs evs e he
      · by_cases hex : outfileName outdir num ∈ fs
        · rw [loop_step_skip hsplit hfil hex]
          exact ih _ fs _ e (List.mem_append_left _ he)
        · cases hw : world i with
          | ok chunks =>
            rw [loop_step_ok hsplit hfil hex hw]
            exact ih _ _ _ e (List.mem_append_left _ he)
          | interrupted chunks pf =>
            rw [loop_step_cancel hsplit hfil hex hw]
            exact List.mem_append_left _ he

/-- Every event the loop adds concerns an identifier of the remaining
list that the filter selects (C4's frame property, at loop level). -/
theorem loop_mem_new (world : String → FetchOutcome) (outdir iiif : String)
    (only : Finset String) :
    ∀ names ctx fs evs,
      ∀ e ∈ (dowloadLoop world outdir iiif only names ctx fs evs).events,
        e ∈ evs ∨ ∃ j, eventIdent e = some j ∧ j ∈ names ∧ (only = ∅ ∨ j ∈ only) := by
  intro names
  induction names with
  | nil =>
    intro ctx fs evs e he
    exact Or.inl (by simpa [dowloadLoop] using he)
  | cons i rest ih =>
    intro ctx fs evs e he
    cases hsplit : rsplitU i.toList with
    | none =>
      rw [loop_step_unpack hsplit] at he
      exact Or.inl he
    | some p =>
      obtain ⟨a, num⟩ := p
      by_cases hfil : only ≠ ∅ ∧ i ∉ only
      · rw [loop_step_filtered hsplit hfil] at he
        rcases ih _ fs evs e he with h | ⟨j, h1, h2, h3⟩
        · exact Or.inl h
        · exact Or.inr ⟨j, h1, List.mem_cons_of_mem i h2, h3⟩
      · have hsel : only = ∅ ∨ i ∈ only := by
          rcases not_and_or.mp hfil with h | h
          · exact Or.inl (not_not.mp h)
          · exact Or.inr (not_not.mp h)
        by_cases hex : outfileName outdir num ∈ fs
        · rw [loop_step_skip hsplit hfil hex] at he
          rcases ih _ fs _ e he with h | ⟨j, h1, h2, h3⟩
          · rcases List.mem_append.mp h with h | h
            · exact Or.inl h
            · rcases List.mem_cons.mp h with h | h
              · exact Or.inr ⟨i, by rw [h]; rfl, List.mem_cons_self i rest, hsel⟩
              · rcases List.mem_cons.mp h with h | h
                · exact Or.inr ⟨i, by rw [h]; rfl, List.mem_cons_self i rest, hsel⟩
                · exact absurd h (List.not_mem_nil e)
          · exact Or.inr ⟨j, h1, List.mem_cons_of_mem i h2, h3⟩
        · cases hw : world i with
          | ok chunks =>
            rw [loop_step_ok hsplit hfil hex hw] at he
            rcases ih _ _ _ e he with h | ⟨j, h1, h2, h3⟩
            · rcases List.mem_append.mp h with h | h
              · exact Or.inl h
              · refine Or.inr ⟨i, ?_, List.mem_cons_self i rest, hsel⟩
                rcases List.mem_cons.mp h with h | h
                · rw [h]; rfl
                rcases List.mem_cons.mp h with h | h
                · rw [h]; rfl
                rcases List.mem_append.mp h with h | h
                · exact progressEvents_ident i chunks _ e h
                · rcases List.mem_singleton.mp h with h
                  rw [h]; rfl
            · exact Or.inr ⟨j, h1, List.mem_cons_of_mem i h2, h3⟩
          | interrupted chunks pf =>
            rw [loop_step_cancel hsplit hfil hex hw] at he
            rcases List.mem_append.mp he with h | h
            · exact Or.inl h
            · refine Or.inr ⟨i, ?_, List.mem_cons_self i rest, hsel⟩
              rcases List.mem_cons.mp h with h | h
              · rw [h]; rfl
              rcases List.mem_cons.mp h with h | h
              · rw [h]; rfl
              rcases List.mem_append.mp h with h | h
              · exact progressEvents_ident i chunks _ e h
              · rcases List.mem_cons.mp h with h | h
                · rw [h]; rfl
                · rcases List.mem_singleton.mp h with h
                  rw [h]; rfl

/-- Unlinking a file that was never written (or was just written)
restores the filesystem: the compensation of the cancellation path. -/
theorem erase_if_insert {f : String} {fs : Finset String} (h : f ∉ fs) (pf : Bool) :
    (if pf then insert f fs else fs).erase f = fs := by
  cases pf with
  | false => simpa using Finset.erase_eq_of_not_mem h
  | true => simpa using Finset.erase_insert h

/-- With no filter, the condition guarding the `continue` is never
true. -/
theorem no_filter_not_skipped (i : String) :
    ¬((∅ : Finset String) ≠ ∅ ∧ i ∉ (∅ : Finset String)) := by simp

/-- The loop can only raise the rsplit unpacking `ValueError`, never
the `AttributeError` of the missing-filter call. -/
theorem loop_err_not_attr (world : String → FetchOutcome) (outdir iiif : String)
    (only : Finset String) :
    ∀ names ctx fs evs,
      (dowloadLoop world outdir iiif only names ctx fs evs).err ≠
        some .attributeError := by
  intro names
  induction names with
  | nil => intro ctx fs evs; simp [dowloadLoop]
  | cons i rest ih =>
    intro ctx fs evs
    cases hsplit : rsplitU i.toList with
    | none => rw [loop_step_unpack hsplit]; simp
    | some p =>
      obtain ⟨a, num⟩ := p
      by_cases hfil : only ≠ ∅ ∧ i ∉ only
      · rw [loop_step_filtered hsplit hfil]; exact ih _ _ _
      · by_cases hex : outfileName outdir num ∈ fs
        · rw [loop_step_skip hsplit hfil hex]; exact ih _ _ _
        · cases hw : world i with
          | ok chunks => rw [loop_step_ok hsplit hfil hex hw]; exact ih _ _ _
          | interrupted chunks pf => rw [loop_step_cancel hsplit hfil hex hw]; simp

/-- An unfiltered run over identifiers that all rsplit and whose
fetches all succeed: no exception, the filesystem only grows, every
identifier's output file exists afterwards, every identifier got an
`on_start` whose context carries the run's total, and the final
context keeps the initial total. -/
theorem loop_run_ok (world : String → FetchOutcome) (outdir iiif : String) :
    ∀ names ctx fs evs,
      (∀ i ∈ names, (rsplitU i.toList).isSome = true ∧ (world i).isOk = true) →
      (dowloadLoop world outdir iiif ∅ names ctx fs evs).err = none ∧
      fs ⊆ (dowloadLoop world outdir iiif ∅ names ctx fs evs).fs ∧
      (∀ i ∈ names, ∀ a num, rsplitU i.toList = some (a, num) →
        outfileName outdir num ∈ (dowloadLoop world outdir iiif ∅ names ctx fs evs).fs) ∧
      (∀ i ∈ names, ∃ c,
        Event.onStart i c ∈ (dowloadLoop world outdir iiif ∅ names ctx fs evs).events ∧
          c.total_images = ctx.total_images) ∧
      (∃ c, (dowloadLoop world outdir iiif ∅ names ctx fs evs).finalCtx = some c ∧
        c.total_images = ctx.total_images) := by
  intro names
  induction names with
  | nil =>
    intro ctx fs evs _
    refine ⟨rfl, Finset.Subset.refl fs, ?_, ?_, ctx, rfl, rfl⟩
    · intro i hi; exact absurd hi (List.not_mem_nil i)
    · intro i hi; exact absurd hi (List.not_mem_nil i)
  | cons i rest ih =>
    intro ctx fs evs hall
    obtain ⟨hsome, hok⟩ := hall i (List.mem_cons_self i rest)
    obtain ⟨p, hsplit⟩ := Option.isSome_iff_exists.mp hsome
    obtain ⟨a, num⟩ := p
    have hrest : ∀ j ∈ rest, (rsplitU j.toList).isSome = true ∧
        (world j).isOk = true :=
      fun j hj => hall j (List.mem_cons_of_mem i hj)
    have hfil := no_filter_not_skipped i
    by_cases hex : outfileName outdir num ∈ fs
    · rw [loop_step_skip hsplit hfil hex]
      obtain ⟨e1, e2, e3, e4, e5⟩ := ih _ fs _ hrest
      have htot : (ctxIncr (ctxUpdate ctx (outfileName outdir num)
          (image_url iiif i))).total_images = ctx.total_images := rfl
      refine ⟨e1, e2, ?_, ?_, ?_⟩
      · intro i0 hi0 a0 num0 hsplit0
        rcases List.mem_cons.mp hi0 with h | h
        · rw [h] at hsplit0
          rw [hsplit0] at hsplit
          have hnum : num0 = num := by
            have := Option.some.inj hsplit
            exact (Prod.mk.inj this).2
          rw [← hnum] at hex
          exact e2 hex
        · exact e3 i0 h a0 num0 hsplit0
      · intro i0 hi0
        rcases List.mem_cons.mp hi0 with h | h
        · refine ⟨ctxUpdate ctx (outfileName outdir num) (image_url iiif i), ?_, rfl⟩
          rw [h]
          exact loop_evs_sub world outdir iiif ∅ rest _ fs _ _
            (List.mem_append_right evs (List.mem_cons_self _ _))
        · obtain ⟨c, hc1, hc2⟩ := e4 i0 h
          exact ⟨c, hc1, by rw [hc2]; exact htot⟩
      · obtain ⟨c, hc1, hc2⟩ := e5
        exact ⟨c, hc1, by rw [hc2]; exact htot⟩
    · obtain ⟨chunks, hw⟩ : ∃ chunks, world i = .ok chunks := by
        cases hwi : world i with
        | ok chunks => exact ⟨chunks, rfl⟩
        | interrupted chunks pf => rw [hwi] at hok; simp [FetchOutcome.isOk] at hok
      rw [loop_step_ok hsplit hfil hex hw]
      obtain ⟨e1, e2, e3, e4, e5⟩ := ih _ (insert (outfileName outdir num) fs) _ hrest
      have htot : (ctxIncr (progressEvents i (ctxUpdate ctx (outfileName outdir num)
          (image_url iiif i)) chunks).2).total_images = ctx.total_images := by
        show (progressEvents i (ctxUpdate ctx (outfileName outdir num)
          (image_url iiif i)) chunks).2.total_images = ctx.total_images
        rw [progressEvents_total]
        rfl
      refine ⟨e1, Finset.Subset.trans (Finset.subset_insert _ fs) e2, ?_, ?_, ?_⟩
      · intro i0 hi0 a0 num0 hsplit0
        rcases List.mem_cons.mp hi0 with h | h
        · rw [h] at hsplit0
          rw [hsplit0] at hsplit
          have hnum : num0 = num := by
            have := Option.some.inj hsplit
            exact (Prod.mk.inj this).2
          rw [hnum]
          exact e2 (Finset.mem_insert_self _ fs)
        · exact e3 i0 h a0 num0 hsplit0
      · intro i0 hi0
        rcases List.mem_cons.mp hi0 with h | h
        · refine ⟨ctxUpdate ctx (outfileName outdir num) (image_url iiif i), ?_, rfl⟩
          rw [h]
          exact loop_evs_sub world outdir iiif ∅ rest _ _ _ _
            (List.mem_append_right evs (List.mem_cons_self _ _))
        · obtain ⟨c, hc1, hc2⟩ := e4 i0 h
          exact ⟨c, hc1, by rw [hc2]; exact htot⟩
      · obtain ⟨c, hc1, hc2⟩ := e5
        exact ⟨c, hc1, by rw [hc2]; exact htot⟩

/-- An unfiltered run in which every identifier's output file already
exists: no exception, the filesystem is unchanged, the added events
are only `on_start`s and skipped `on_completion`s (in particular no
fetch), every identifier gets a skipped `on_completion`, and the
processed counter ends at its start plus the number of items. -/
theorem loop_all_exist (world : String → FetchOutcome) (outdir iiif : String) :
    ∀ names ctx fs evs,
      (∀ i ∈ names, ∃ a num, rsplitU i.toList = some (a, num) ∧
        outfileName outdir num ∈ fs) →
      (dowloadLoop world outdir iiif ∅ names ctx fs evs).err = none ∧
      (dowloadLoop world outdir iiif ∅ names ctx fs evs).fs = fs ∧
      (∀ e ∈ (dowloadLoop world outdir iiif ∅ names ctx fs evs).events,
        e ∈ evs ∨ (∃ j c, e = Event.onStart j c) ∨
          ∃ j c, e = Event.onCompletion j c true false) ∧
      (∀ i ∈ names, ∃ c, Event.onCompletion i c true false ∈
        (dowloadLoop world outdir iiif ∅ names ctx fs evs).events) ∧
      (∃ c, (dowloadLoop world outdir iiif ∅ names ctx fs evs).finalCtx = some c ∧
        c.processed_images = ctx.processed_images + names.length ∧
        c.total_images = ctx.total_images) := by
  intro names
  induction names with
  | nil =>
    intro ctx fs evs _
    refine ⟨rfl, rfl, ?_, ?_, ctx, rfl, rfl, rfl⟩
    · intro e he; exact Or.inl (by simpa [dowloadLoop] using he)
    · intro i hi; exact absurd hi (List.not_mem_nil i)
  | cons i rest ih =>
    intro ctx fs evs hall
    obtain ⟨a, num, hsplit, hex⟩ := hall i (List.mem_cons_self i rest)
    have hrest : ∀ j ∈ rest, ∃ a num, rsplitU j.toList = some (a, num) ∧
        outfileName outdir num ∈ fs :=
      fun j hj => hall j (List.mem_cons_of_mem i hj)
    have hfil := no_filter_not_skipped i
    rw [loop_step_skip hsplit hfil hex]
    obtain ⟨e1, e2, e3, e4, e5⟩ := ih _ fs _ hrest
    refine ⟨e1, e2, ?_, ?_, ?_⟩
    · intro e he
      rcases e3 e he with h | h | h
      · rcases List.mem_append.mp h with h | h
        · exact Or.inl h
        · rcases List.mem_cons.mp h with h | h
          · exact Or.inr (Or.inl ⟨i, _, h⟩)
          · rcases List.mem_cons.mp h with h | h
            · exact Or.inr (Or.inr ⟨i, _, h⟩)
            · exact absurd h (List.not_mem_nil e)
      · exact Or.inr (Or.inl h)
      · exact Or.inr (Or.inr h)
    · intro i0 hi0
      rcases List.mem_cons.mp hi0 with h | h
      · refine ⟨ctxIncr (ctxUpdate ctx (outfileName outdir num) (image_url iiif i)), ?_⟩
        rw [h]
        exact loop_evs_sub world outdir iiif ∅ rest _ fs _ _
          (List.mem_append_right evs (List.mem_cons_of_mem _ (List.mem_cons_self _ _)))
      · exact e4 i0 h
    · obtain ⟨c, hc1, hc2, hc3⟩ := e5
      refine ⟨c, hc1, ?_, hc3⟩
      rw [hc2]
      show ctx.processed_images + 1 + rest.length = ctx.processed_images + (rest.length + 1)
      omega

/-! ## Claim theorems about the download orchestrator -/

/-- C1: when an external cancellation signal interrupts the fetch of
the current item, the orchestrator deletes the partially-written
output file if it exists (tolerating its absence — the filesystem is
restored exactly, so no truncated file remains), invokes
`on_completion` with outcome cancelled for that item, and terminates
the whole run immediately: every event added from the interruption on
concerns the interrupted item only (so no later identifier is
started), and the trace ends with the cancelled completion.  The
final conjuncts replay the spec's item-2-of-3 scenario through
`dowload`. -/
theorem c1_cancel_aborts :
    (∀ world outdir iiif only i post ctx fs evs a num chunks pf,
      rsplitU i.toList = some (a, num) →
      ¬(only ≠ ∅ ∧ i ∉ only) →
      outfileName outdir num ∉ fs →
      world i = .interrupted chunks pf →
      (dowloadLoop world outdir iiif only (i :: post) ctx fs evs).err = none ∧
      (dowloadLoop world outdir iiif only (i :: post) ctx fs evs).fs = fs ∧
      outfileName outdir num ∉
        (dowloadLoop world outdir iiif only (i :: post) ctx fs evs).fs ∧
      (∃ tail,
        (dowloadLoop world outdir iiif only (i :: post) ctx fs evs).events =
          evs ++ tail ∧
        (∀ e ∈ tail, eventIdent e = some i) ∧
        ∃ c, tail.getLast? = some (Event.onCompletion i c false true))) ∧
    (dowload exAlbum ∅ false worldCancelB none (some ∅)).err = none ∧
    "T/2.jpg" ∉ (dowload exAlbum ∅ false worldCancelB none (some ∅)).fs ∧
    (∀ e ∈ (dowload exAlbum ∅ false worldCancelB none (some ∅)).events,
      eventIdent e ≠ some "c_3") ∧
    (dowload exAlbum ∅ false worldCancelB none (some ∅)).events.getLast? =
      some (Event.onCompletion "b_2"
        ⟨some "T/2.jpg", 1, 5, 12, 3, some (image_url "/ns" "b_2")⟩ false true) := by
  refine ⟨?_, by decide, by decide, by decide, by decide⟩
  intro world outdir iiif only i post ctx fs evs a num chunks pf hsplit hfil hex hw
  rw [loop_step_cancel hsplit hfil hex hw]
  have h2 : (if pf then insert (outfileName outdir num) fs else fs).erase
      (outfileName outdir num) = fs := erase_if_insert hex pf
  refine ⟨rfl, h2, ?_, ?_⟩
  · show outfileName outdir num ∉ (if pf then insert (outfileName outdir num) fs
      else fs).erase (outfileName outdir num)
    rw [h2]
    exact hex
  · refine ⟨(Event.onStart i (ctxUpdate ctx (outfileName outdir num) (image_url iiif i)) ::
      Event.fetch i (image_url iiif i) (outfileName outdir num) ::
      ((progressEvents i (ctxUpdate ctx (outfileName outdir num) (image_url iiif i))
        chunks).1 ++ [Event.unlink i (outfileName outdir num)])) ++
      [Event.onCompletion i
        (progressEvents i (ctxUpdate ctx (outfileName outdir num) (image_url iiif i))
          chunks).2 false true], ?_, ?_, ?_⟩
    · show evs ++ _ = evs ++ _
      simp
    · intro e he
      rcases List.mem_append.mp he with h | h
      · rcases List.mem_cons.mp h with h | h
        · rw [h]; rfl
        rcases List.mem_cons.mp h with h | h
        · rw [h]; rfl
        rcases List.mem_append.mp h with h | h
        · exact progressEvents_ident i chunks _ e h
        · rcases List.mem_singleton.mp h with h
          rw [h]; rfl
      · rcases List.mem_singleton.mp h with h
        rw [h]; rfl
    · exact ⟨_, List.getLast?_concat _⟩

/-- C1 witness: the general cancellation theorem applied to a
single-item loop state with an interrupted fetch and no partial file
written. -/
theorem c1_witness :
    (dowloadLoop (fun _ => .interrupted [] false) "T" "/ns" ∅ ("b_2" :: ["c_3"])
      (initCtx 3) ∅ []).err = none ∧
    (dowloadLoop (fun _ => .interrupted [] false) "T" "/ns" ∅ ("b_2" :: ["c_3"])
      (initCtx 3) ∅ []).fs = ∅ ∧
    outfileName "T" "2".toList ∉
      (dowloadLoop (fun _ => .interrupted [] false) "T" "/ns" ∅ ("b_2" :: ["c_3"])
        (initCtx 3) ∅ []).fs ∧
    (∃ tail,
      (dowloadLoop (fun _ => .interrupted [] false) "T" "/ns" ∅ ("b_2" :: ["c_3"])
        (initCtx 3) ∅ []).events = [] ++ tail ∧
      (∀ e ∈ tail, eventIdent e = some "b_2") ∧
      ∃ c, tail.getLast? = some (Event.onCompletion "b_2" c false true)) :=
  c1_cancel_aborts.1 (fun _ => .interrupted [] false) "T" "/ns" ∅ "b_2" ["c_3"]
    (initCtx 3) ∅ [] "b".toList "2".toList [] false (by decide) (by decide)
    (by decide) rfl

/-- Unfolding of `dowload` when the filter is a valid subset. -/
theorem dowload_some (album : Album) (fs0 : Finset String) (dirExists : Bool)
    (world : String → FetchOutcome) (directory : Option String) (onlySet : Finset String)
    (hsub : ∀ x ∈ onlySet, x ∈ album.image_names) :
    dowload album fs0 dirExists world directory (some onlySet) =
      dowloadLoop world (directory.getD album.title) album.iiif onlySet
        album.image_names
        (initCtx (if onlySet ≠ ∅ then onlySet.card else album.image_names.length)) fs0
        (if dirExists then [] else [Event.mkdirE (directory.getD album.title)]) := by
  simp only [dowload, if_pos hsub]

/-- Unfolding of `dowload` when the filter is not a subset of the
album's identifiers: the assert fires before anything happens. -/
theorem dowload_some_bad (album : Album) (fs0 : Finset String) (dirExists : Bool)
    (world : String → FetchOutcome) (directory : Option String) (onlySet : Finset String)
    (hsub : ¬∀ x ∈ onlySet, x ∈ album.image_names) :
    dowload album fs0 dirExists world directory (some onlySet) =
      ⟨[], fs0, none, some .assertionError⟩ := by
  simp only [dowload, if_neg hsub]

/-- C10: calling `dowload` with the `only` argument left as `None`
always fails at the subset-precondition line (`None.issubset` raises
`AttributeError`) with an empty event trace — so before the output
directory is created, before any reporter hook and before any network
activity — and the filesystem is untouched; passing an actual set can
never produce that error, so the download-all behaviour is only
reachable with a real (possibly empty) set. -/
theorem c10_none_filter :
    (∀ album fs0 dirExists world directory,
      dowload album fs0 dirExists world directory none =
        ⟨[], fs0, none, some .attributeError⟩) ∧
    (∀ album fs0 dirExists world directory s,
      (dowload album fs0 dirExists world directory (some s)).err ≠
        some .attributeError) := by
  constructor
  · intro album fs0 dirExists world directory
    rfl
  · intro album fs0 dirExists world directory s h
    by_cases hsub : ∀ x ∈ s, x ∈ album.image_names
    · rw [dowload_some album fs0 dirExists world directory s hsub] at h
      exact loop_err_not_attr world _ album.iiif s album.image_names _ fs0 _ h
    · rw [dowload_some_bad album fs0 dirExists world directory s hsub] at h
      simp at h

/-- C10 witness: both parts at a concrete album and world. -/
theorem c10_witness :
    dowload exAlbum ∅ true worldOk none none = ⟨[], ∅, none, some .attributeError⟩ ∧
    (dowload exAlbum ∅ true worldOk none (some ∅)).err ≠ some .attributeError :=
  ⟨c10_none_filter.1 exAlbum ∅ true worldOk none,
   c10_none_filter.2 exAlbum ∅ true worldOk none ∅⟩

/-- C4: with a non-empty subset filter, an identifier not in the
filter is invisible to the run: no reporter hook, fetch or unlink
event ever concerns it.  The concrete conjuncts replay the spec's
scenario — identifiers `[a_1, b_2, c_3]` with filter `{b_2}`: only
`b_2` is fetched, `a_1` and `c_3` produce no events, the processed
counter never exceeds 1 in any hook's context, and the run's total is
the filter's size. -/
theorem c4_filter_frame :
    (∀ album fs0 dirExists world directory onlySet j,
      onlySet ≠ ∅ → j ∉ onlySet →
      ∀ e ∈ (dowload album fs0 dirExists world directory (some onlySet)).events,
        eventIdent e ≠ some j) ∧
    (∀ e ∈ (dowload exAlbum ∅ false worldOk none (some {"b_2"})).events,
      eventIdent e ≠ some "a_1" ∧ eventIdent e ≠ some "c_3") ∧
    Event.fetch "b_2" (image_url "/ns" "b_2") "T/2.jpg" ∈
      (dowload exAlbum ∅ false worldOk none (some {"b_2"})).events ∧
    (∀ e ∈ (dowload exAlbum ∅ false worldOk none (some {"b_2"})).events,
      ∀ c, eventCtx e = some c → c.processed_images ≤ 1) ∧
    (dowload exAlbum ∅ false worldOk none (some {"b_2"})).finalCtx =
      some ⟨some "T/3.jpg", 1, 0, 100, 1, some (image_url "/ns" "c_3")⟩ := by
  refine ⟨?_, by decide, by decide, by decide, by decide⟩
  intro album fs0 dirExists world directory onlySet j hne hnot e he hj
  by_cases hsub : ∀ x ∈ onlySet, x ∈ album.image_names
  · rw [dowload_some album fs0 dirExists world directory onlySet hsub] at he
    rcases loop_mem_new world (directory.getD album.title) album.iiif onlySet
      album.image_names _ fs0 _ e he with h | ⟨j0, hj0, _, hsel⟩
    · cases dirExists with
      | true => simp at h
      | false =>
        rw [if_neg (by simp)] at h
        rcases List.mem_singleton.mp h with h
        rw [h] at hj
        simp [eventIdent] at hj
    · rcases hsel with h | h
      · exact hne h
      · rw [hj0] at hj
        rcases Option.some.inj hj with rfl
        exact hnot h
  · rw [dowload_some_bad album fs0 dirExists world directory onlySet hsub] at he
    simp at he

/-- C4 witness: the frame property applied to the concrete filtered
run, for the excluded identifier `c_3`. -/
theorem c4_witness :
    ∀ e ∈ (dowload exAlbum ∅ false worldOk none (some {"b_2"})).events,
      eventIdent e ≠ some "c_3" :=
  c4_filter_frame.1 exAlbum ∅ false worldOk none {"b_2"} "c_3" (by decide) (by decide)

/-- C2: an identifier whose output file already exists when reached
is a completed no-op — no fetch, the processed counter is
incremented, `on_completion` reports `skipped`, and the loop continues
with the next identifier (first conjunct, an exact step equation).
Consequently running the download twice against the same output
directory with an empty filter makes the second run report `skipped`
for every item, perform zero fetches, leave the filesystem unchanged
and end with the processed counter at the full album count (second
conjunct). -/
theorem c2_skip_existing :
    (∀ world outdir iiif only i rest ctx fs evs a num,
      rsplitU i.toList = some (a, num) →
      ¬(only ≠ ∅ ∧ i ∉ only) →
      outfileName outdir num ∈ fs →
      dowloadLoop world outdir iiif only (i :: rest) ctx fs evs =
        dowloadLoop world outdir iiif only rest
          (ctxIncr (ctxUpdate ctx (outfileName outdir num) (image_url iiif i))) fs
          (evs ++
            [Event.onStart i (ctxUpdate ctx (outfileName outdir num) (image_url iiif i)),
             Event.onCompletion i
               (ctxIncr (ctxUpdate ctx (outfileName outdir num) (image_url iiif i)))
               true false])) ∧
    (∀ album fs0 d1 d2 world directory,
      (∀ i ∈ album.image_names,
        (rsplitU i.toList).isSome = true ∧ (world i).isOk = true) →
      (runTwice album fs0 d1 d2 world directory).1.err = none ∧
      (runTwice album fs0 d1 d2 world directory).2.err = none ∧
      (runTwice album fs0 d1 d2 world directory).2.fs =
        (runTwice album fs0 d1 d2 world directory).1.fs ∧
      (∀ e ∈ (runTwice album fs0 d1 d2 world directory).2.events, isFetch e = false) ∧
      (∀ e ∈ (runTwice album fs0 d1 d2 world directory).2.events,
        ∀ j c s k, e = Event.onCompletion j c s k → s = true ∧ k = false) ∧
      (∀ i ∈ album.image_names, ∃ c, Event.onCompletion i c true false ∈
        (runTwice album fs0 d1 d2 world directory).2.events) ∧
      (∃ c, (runTwice album fs0 d1 d2 world directory).2.finalCtx = some c ∧
        c.processed_images = album.image_names.length)) := by
  constructor
  · intro world outdir iiif only i rest ctx fs evs a num hsplit hfil hex
    exact loop_step_skip hsplit hfil hex
  · intro album fs0 d1 d2 world directory hall
    have hsub : ∀ x ∈ (∅ : Finset String), x ∈ album.image_names := by simp
    have hr1 : (runTwice album fs0 d1 d2 world directory).1 =
        dowloadLoop world (directory.getD album.title) album.iiif ∅ album.image_names
          (initCtx (if (∅ : Finset String) ≠ ∅ then (∅ : Finset String).card
            else album.image_names.length)) fs0
          (if d1 then [] else [Event.mkdirE (directory.getD album.title)]) := by
      show dowload album fs0 d1 world directory (some ∅) = _
      exact dowload_some album fs0 d1 world directory ∅ hsub
    obtain ⟨a1, a2, a3, a4, a5⟩ := loop_run_ok world (directory.getD album.title)
      album.iiif album.image_names
      (initCtx (if (∅ : Finset String) ≠ ∅ then (∅ : Finset String).card
        else album.image_names.length)) fs0
      (if d1 then [] else [Event.mkdirE (directory.getD album.title)]) hall
    have hexists : ∀ i ∈ album.image_names, ∃ a num,
        rsplitU i.toList = some (a, num) ∧
          outfileName (directory.getD album.title) num ∈
            (runTwice album fs0 d1 d2 world directory).1.fs := by
      intro i hi
      obtain ⟨hsome, -⟩ := hall i hi
      obtain ⟨p, hsplit⟩ := Option.isSome_iff_exists.mp hsome
      obtain ⟨a, num⟩ := p
      refine ⟨a, num, hsplit, ?_⟩
      rw [hr1]
      exact a3 i hi a num hsplit
    have hr2 : (runTwice album fs0 d1 d2 world directory).2 =
        dowloadLoop world (directory.getD album.title) album.iiif ∅ album.image_names
          (initCtx (if (∅ : Finset String) ≠ ∅ then (∅ : Finset String).card
            else album.image_names.length))
          (runTwice album fs0 d1 d2 world directory).1.fs
          (if d2 then [] else [Event.mkdirE (directory.getD album.title)]) := by
      show dowload album (dowload album fs0 d1 world directory (some ∅)).fs d2 world
        directory (some ∅) = _
      exact dowload_some album _ d2 world directory ∅ hsub
    obtain ⟨b1, b2, b3, b4, b5⟩ := loop_all_exist world (directory.getD album.title)
      album.iiif album.image_names
      (initCtx (if (∅ : Finset String) ≠ ∅ then (∅ : Finset String).card
        else album.image_names.length))
      (runTwice album fs0 d1 d2 world directory).1.fs
      (if d2 then [] else [Event.mkdirE (directory.getD album.title)]) hexists
    refine ⟨by rw [hr1]; exact a1, by rw [hr2]; exact b1, by rw [hr2]; exact b2,
      ?_, ?_, ?_, ?_⟩
    · intro e he
      rw [hr2] at he
      rcases b3 e he with h | h | h
      · cases d2 with
        | true => simp at h
        | false =>
          simp only [Bool.false_eq_true, if_false] at h
          rcases List.mem_singleton.mp h with h
          rw [h]
          rfl
      · rcases h with ⟨j, c, rfl⟩
        rfl
      · rcases h with ⟨j, c, rfl⟩
        rfl
    · intro e he j c s k heq
      rw [hr2] at he
      rcases b3 e he with h | h | h
      · cases d2 with
        | true => simp at h
        | false =>
          simp only [Bool.false_eq_true, if_false] at h
          rcases List.mem_singleton.mp h with h
          rw [heq] at h
          simp at h
      · rcases h with ⟨j0, c0, rfl⟩
        simp at heq
      · rcases h with ⟨j0, c0, rfl⟩
        injection heq with h1 h2 h3 h4
        exact ⟨h3.symm, h4.symm⟩
    · intro i hi
      obtain ⟨c, hc⟩ := b4 i hi
      refine ⟨c, ?_⟩
      rw [hr2]
      exact hc
    · obtain ⟨c, hc1, hc2, -⟩ := b5
      refine ⟨c, by rw [hr2]; exact hc1, ?_⟩
      rw [hc2]
      show (initCtx _).processed_images + album.image_names.length =
        album.image_names.length
      simp [initCtx]

/-- C2 witness: the idempotence run on the three-image example album
with an all-succeeding network. -/
theorem c2_witness :
    (runTwice exAlbum ∅ false true worldOk none).1.err = none ∧
    (runTwice exAlbum ∅ false true worldOk none).2.err = none ∧
    (runTwice exAlbum ∅ false true worldOk none).2.fs =
      (runTwice exAlbum ∅ false true worldOk none).1.fs ∧
    (∀ e ∈ (runTwice exAlbum ∅ false true worldOk none).2.events, isFetch e = false) ∧
    (∀ e ∈ (runTwice exAlbum ∅ false true worldOk none).2.events,
      ∀ j c s k, e = Event.onCompletion j c s k → s = true ∧ k = false) ∧
    (∀ i ∈ exAlbum.image_names, ∃ c, Event.onCompletion i c true false ∈
      (runTwice exAlbum ∅ false true worldOk none).2.events) ∧
    (∃ c, (runTwice exAlbum ∅ false true worldOk none).2.finalCtx = some c ∧
      c.processed_images = exAlbum.image_names.length) :=
  c2_skip_existing.2 exAlbum ∅ false true worldOk none (by decide)

/-- C7 (amended): parsing the empty range expression does not succeed
(`int('')` raises), but an empty selection set — the CLI default when
no range is given — is interpreted downstream as select-all: the run
completes, every identifier receives an `on_start`, and the progress
total is the full album count. -/
theorem c7_empty_selects_all :
    resultErr (parseRangeList "".toList) = some (.badInt []) ∧
    (∀ album fs0 dirExists world directory,
      (∀ i ∈ album.image_names,
        (rsplitU i.toList).isSome = true ∧ (world i).isOk = true) →
      (dowload album fs0 dirExists world directory (some ∅)).err = none ∧
      (∀ i ∈ album.image_names, ∃ c, Event.onStart i c ∈
        (dowload album fs0 dirExists world directory (some ∅)).events ∧
          c.total_images = album.image_names.length) ∧
      (∃ c, (dowload album fs0 dirExists world directory (some ∅)).finalCtx = some c ∧
        c.total_images = album.image_names.length)) := by
  refine ⟨by decide, ?_⟩
  intro album fs0 dirExists world directory hall
  have hsub : ∀ x ∈ (∅ : Finset String), x ∈ album.image_names := by simp
  have hr : dowload album fs0 dirExists world directory (some ∅) =
      dowloadLoop world (directory.getD album.title) album.iiif ∅ album.image_names
        (initCtx (if (∅ : Finset String) ≠ ∅ then (∅ : Finset String).card
          else album.image_names.length)) fs0
        (if dirExists then [] else [Event.mkdirE (directory.getD album.title)]) :=
    dowload_some album fs0 dirExists world directory ∅ hsub
  obtain ⟨a1, a2, a3, a4, a5⟩ := loop_run_ok world (directory.getD album.title)
    album.iiif album.image_names
    (initCtx (if (∅ : Finset String) ≠ ∅ then (∅ : Finset String).card
      else album.image_names.length)) fs0
    (if dirExists then [] else [Event.mkdirE (directory.getD album.title)]) hall
  have htot : (initCtx (if (∅ : Finset String) ≠ ∅ then (∅ : Finset String).card
      else album.image_names.length)).total_images = album.image_names.length := by
    simp [initCtx]
  refine ⟨by rw [hr]; exact a1, ?_, ?_⟩
  · intro i hi
    obtain ⟨c, hc1, hc2⟩ := a4 i hi
    refine ⟨c, ?_, by rw [hc2]; exact htot⟩
    rw [hr]
    exact hc1
  · obtain ⟨c, hc1, hc2⟩ := a5
    exact ⟨c, by rw [hr]; exact hc1, by rw [hc2]; exact htot⟩

/-- C7 witness: the select-all behaviour on the three-image example
album. -/
theorem c7_witness :
    (dowload exAlbum ∅ true worldOk none (some ∅)).err = none ∧
    (∀ i ∈ exAlbum.image_names, ∃ c, Event.onStart i c ∈
      (dowload exAlbum ∅ true worldOk none (some ∅)).events ∧
        c.total_images = exAlbum.image_names.length) ∧
    (∃ c, (dowload exAlbum ∅ true worldOk none (some ∅)).finalCtx = some c ∧
      c.total_images = exAlbum.image_names.length) :=
  c7_empty_selects_all.2 exAlbum ∅ true worldOk none (by decide)

end InhaDl
